import Mathlib

/-!
Shallow embedding of the entropic-regularized optimal-transport (IPFP /
Sinkhorn) solvers of the notebook `B04_optimal-assignment.ipynb`:

* cell 5: matrix IPFP in the linear (multiplicative) domain;
* cell 6: the same iteration in the log domain;
* cell 7: the log-domain iteration with the log-sum-exp stabilization.

Machine floats are modelled by exact real numbers; the numpy vectors of
length `nbX` and `nbY` become functions `Fin n → ℝ` and `Fin m → ℝ`, and
`np.NINF` (used by cell 7 for the previous iterate) is modelled with
`EReal`.  The numpy 2-d array shape/broadcast discipline relevant to the
hard-coded `np.repeat(B, 5, axis = 1)` of cell 5 is modelled separately by
an untyped matrix type `NpMat`.
-/

open scoped BigOperators

noncomputable section

open Classical

namespace IPFP

/-- Maximum of a vector of reals over the (nonempty) index type,
modelling `np.max`. -/
def vmax {k : ℕ} [NeZero k] (f : Fin k → ℝ) : ℝ :=
  Finset.univ.sup' (Finset.univ_nonempty) f

/-- `K = np.exp(Phi/sigma)` of cell 5. -/
def kernel {n m : ℕ} (σ : ℝ) (Φ : Fin n → Fin m → ℝ) : Fin n → Fin m → ℝ :=
  fun i j => Real.exp (Φ i j / σ)

/-- State of the cell-5 matrix-IPFP loop: the scaling vectors `A`, `B`,
the convergence error and the iteration counter.  The source leaves `A`
unassigned before the first loop iteration; the initial state carries an
arbitrary placeholder for it. -/
structure LinState (n m : ℕ) where
  A : Fin n → ℝ
  B : Fin m → ℝ
  error : ℝ
  ite : ℕ

/-- One body of the cell-5 `while` loop:
`A = two_d(p/(K @ B).flatten())`, `KA = A.T @ K`,
`error = np.max(abs(np.multiply(KA, B.flatten()/q) - 1))`,
`B = (q / KA).T`, `ite = ite + 1`. -/
def linStep {n m : ℕ} [NeZero m] (p : Fin n → ℝ) (q : Fin m → ℝ)
    (K : Fin n → Fin m → ℝ) (s : LinState n m) : LinState n m :=
  let A : Fin n → ℝ := fun i => p i / ∑ j, K i j * s.B j
  let KA : Fin m → ℝ := fun j => ∑ i, A i * K i j
  let error : ℝ := vmax fun j => |KA j * (s.B j / q j) - 1|
  let B : Fin m → ℝ := fun j => q j / KA j
  ⟨A, B, error, s.ite + 1⟩

/-- The cell-5 `while error > tol and ite < maxite` loop, with explicit
fuel; the solver runs it with fuel `maxite`, which suffices because `ite`
increases by one per iteration. -/
def linLoop {n m : ℕ} [NeZero m] (p : Fin n → ℝ) (q : Fin m → ℝ)
    (K : Fin n → Fin m → ℝ) (tol : ℝ) (maxite : ℕ) :
    ℕ → LinState n m → LinState n m
  | 0, s => s
  | fuel + 1, s =>
    if s.error > tol ∧ s.ite < maxite then
      linLoop p q K tol maxite fuel (linStep p q K s)
    else s

/-- Initial state of cell 5: `B` all ones, `error = tol + 1`, `ite = 0`
(`A` is unassigned in the source before the loop; its placeholder is the
all-ones vector). -/
def linInit (n m : ℕ) (tol : ℝ) : LinState n m :=
  ⟨fun _ => 1, fun _ => 1, tol + 1, 0⟩

/-- Run of cell 5's loop from its initial state. -/
def linSolve {n m : ℕ} [NeZero m] (p : Fin n → ℝ) (q : Fin m → ℝ)
    (K : Fin n → Fin m → ℝ) (tol : ℝ) (maxite : ℕ) : LinState n m :=
  linLoop p q K tol maxite maxite (linInit n m tol)

/-- The coupling cell 5 reconstructs after the loop,
`pi = (K * A) * np.repeat(B, 5, axis = 1).T`, as the well-typed
entrywise value `A i * K i j * B j` it denotes when the shapes agree
(the shape analysis of the hard-coded `5` is done on `NpMat` below). -/
def linPi {n m : ℕ} (K : Fin n → Fin m → ℝ) (s : LinState n m) :
    Fin n → Fin m → ℝ :=
  fun i j => K i j * s.A i * s.B j

/-- The regularized objective
`val = np.sum(pi * Phi) - sigma * np.sum(pi * np.log(pi))`. -/
def objective {n m : ℕ} (σ : ℝ) (Φ : Fin n → Fin m → ℝ)
    (π : Fin n → Fin m → ℝ) : ℝ :=
  (∑ i, ∑ j, π i j * Φ i j) - σ * ∑ i, ∑ j, π i j * Real.log (π i j)

/-- `mu = - sigma * np.log(p)` of cells 6 and 7. -/
def muOf {n : ℕ} (σ : ℝ) (p : Fin n → ℝ) : Fin n → ℝ :=
  fun i => -σ * Real.log (p i)

/-- `nu = - sigma * np.log(q)` of cells 6 and 7. -/
def nuOf {m : ℕ} (σ : ℝ) (q : Fin m → ℝ) : Fin m → ℝ :=
  fun j => -σ * Real.log (q j)

/-- State of the cell-6 log-domain loop.  The source leaves `u`
unassigned before the first iteration; the initial state carries the
zero vector as a placeholder for it. -/
structure LogState (n m : ℕ) where
  u : Fin n → ℝ
  v : Fin m → ℝ
  error : ℝ
  ite : ℕ

/-- One body of the cell-6 `while` loop:
`u = mu + sigma*log(sum_j exp((Phi - v)/sigma))`,
`KA = sum_i exp((Phi - u)/sigma)`,
`error = max |KA * exp(-v/sigma)/q - 1|` (with the not-yet-updated `v`),
`v = nu + sigma*log(KA)`, `ite = ite + 1`. -/
def logStep {n m : ℕ} [NeZero m] (σ : ℝ) (Φ : Fin n → Fin m → ℝ)
    (p : Fin n → ℝ) (q : Fin m → ℝ) (s : LogState n m) : LogState n m :=
  let u : Fin n → ℝ := fun i =>
    muOf σ p i + σ * Real.log (∑ j, Real.exp ((Φ i j - s.v j) / σ))
  let KA : Fin m → ℝ := fun j => ∑ i, Real.exp ((Φ i j - u i) / σ)
  let error : ℝ := vmax fun j => |KA j * Real.exp (-s.v j / σ) / q j - 1|
  let v : Fin m → ℝ := fun j => nuOf σ q j + σ * Real.log (KA j)
  ⟨u, v, error, s.ite + 1⟩

/-- Initial state of cell 6: `v` all zeros, `error = tol + 1`, `ite = 0`. -/
def logInit (n m : ℕ) (tol : ℝ) : LogState n m :=
  ⟨fun _ => 0, fun _ => 0, tol + 1, 0⟩

/-- The coupling of cells 6 and 7,
`pi = np.exp((Phi - two_d(u) - np.repeat(two_d(v), nbX, axis = 1).T)/sigma)`. -/
def logPi {n m : ℕ} (σ : ℝ) (Φ : Fin n → Fin m → ℝ)
    (u : Fin n → ℝ) (v : Fin m → ℝ) : Fin n → Fin m → ℝ :=
  fun i j => Real.exp ((Φ i j - u i - v j) / σ)

/-- Row-wise max of cell 7, `vstar = np.max(Phi.T - two_d(v), axis = 0)`:
`vstar i = max_j (Phi i j - v j)`. -/
def rowShift {n m : ℕ} [NeZero m] (Φ : Fin n → Fin m → ℝ)
    (v : Fin m → ℝ) : Fin n → ℝ :=
  fun i => vmax fun j => Φ i j - v j

/-- Column-wise max of cell 7, `ustar = np.max(Phi - two_d(u), axis = 0)`:
`ustar j = max_i (Phi i j - u i)`. -/
def colShift {n m : ℕ} [NeZero n] (Φ : Fin n → Fin m → ℝ)
    (u : Fin n → ℝ) : Fin m → ℝ :=
  fun j => vmax fun i => Φ i j - u i

/-- Absolute value on `EReal` (so that `|x - (-∞)| = +∞` for real `x`,
as with `np.abs` on floats containing `np.NINF`). -/
def eabs (x : EReal) : EReal := max x (-x)

/-- State of the cell-7 stabilized loop: the potentials, the previous
`u` iterate (initialized to `np.NINF`, hence `EReal`-valued), the error
and the iteration counter.  `u` is unassigned in the source before the
first iteration; the initial state carries the zero vector for it. -/
structure StabState (n m : ℕ) where
  u : Fin n → ℝ
  v : Fin m → ℝ
  uprec : Fin n → EReal
  error : EReal
  ite : ℕ

/-- One body of the cell-7 `while` loop:
`vstar = max_j (Phi - v)`, `u = mu + vstar + sigma*log(sum_j exp((Phi - v
- vstar)/sigma))`, `error = max |u - uprec|`, `uprec = u`,
`ustar = max_i (Phi - u)`, `KA = sum_i exp((Phi - u - ustar)/sigma)`,
`v = nu + ustar + sigma*log(KA)`, `ite = ite + 1`. -/
def stabStep {n m : ℕ} [NeZero n] [NeZero m] (σ : ℝ)
    (Φ : Fin n → Fin m → ℝ) (p : Fin n → ℝ) (q : Fin m → ℝ)
    (s : StabState n m) : StabState n m :=
  let vstar : Fin n → ℝ := rowShift Φ s.v
  let u : Fin n → ℝ := fun i =>
    muOf σ p i + vstar i +
      σ * Real.log (∑ j, Real.exp ((Φ i j - s.v j - vstar i) / σ))
  let error : EReal :=
    Finset.univ.sup' Finset.univ_nonempty fun i =>
      eabs ((u i : EReal) - s.uprec i)
  let uprec : Fin n → EReal := fun i => (u i : EReal)
  let ustar : Fin m → ℝ := colShift Φ u
  let KA : Fin m → ℝ := fun j =>
    ∑ i, Real.exp ((Φ i j - u i - ustar j) / σ)
  let v : Fin m → ℝ := fun j => nuOf σ q j + ustar j + σ * Real.log (KA j)
  ⟨u, v, uprec, error, s.ite + 1⟩

/-- Initial state of cell 7: `v` all zeros, `uprec = np.NINF`,
`error = tol + 1`, `ite = 0`. -/
def stabInit (n m : ℕ) (tol : ℝ) : StabState n m :=
  ⟨fun _ => 0, fun _ => 0, fun _ => (⊥ : EReal), ((tol + 1 : ℝ) : EReal), 0⟩

/-- The cell-7 `while error > tol and ite < maxite` loop, with explicit
fuel; the solver runs it with fuel `maxite`. -/
def stabLoop {n m : ℕ} [NeZero n] [NeZero m] (σ : ℝ)
    (Φ : Fin n → Fin m → ℝ) (p : Fin n → ℝ) (q : Fin m → ℝ) (tol : ℝ)
    (maxite : ℕ) : ℕ → StabState n m → StabState n m
  | 0, s => s
  | fuel + 1, s =>
    if s.error > (tol : EReal) ∧ s.ite < maxite then
      stabLoop σ Φ p q tol maxite fuel (stabStep σ Φ p q s)
    else s

/-- Run of cell 7's loop from its initial state. -/
def stabSolve {n m : ℕ} [NeZero n] [NeZero m] (σ : ℝ)
    (Φ : Fin n → Fin m → ℝ) (p : Fin n → ℝ) (q : Fin m → ℝ) (tol : ℝ)
    (maxite : ℕ) : StabState n m :=
  stabLoop σ Φ p q tol maxite maxite (stabInit n m tol)

/-- The cell-5 state after `k` executions of the loop body. -/
def linIter {n m : ℕ} [NeZero m] (p : Fin n → ℝ) (q : Fin m → ℝ)
    (K : Fin n → Fin m → ℝ) (tol : ℝ) (k : ℕ) : LinState n m :=
  (linStep p q K)^[k] (linInit n m tol)

/-- The cell-6 state after `k` executions of the loop body. -/
def logIter {n m : ℕ} [NeZero m] (σ : ℝ) (Φ : Fin n → Fin m → ℝ)
    (p : Fin n → ℝ) (q : Fin m → ℝ) (tol : ℝ) (k : ℕ) : LogState n m :=
  (logStep σ Φ p q)^[k] (logInit n m tol)

/-- The cell-7 state after `k` executions of the loop body. -/
def stabIter {n m : ℕ} [NeZero n] [NeZero m] (σ : ℝ)
    (Φ : Fin n → Fin m → ℝ) (p : Fin n → ℝ) (q : Fin m → ℝ) (tol : ℝ)
    (k : ℕ) : StabState n m :=
  (stabStep σ Φ p q)^[k] (stabInit n m tol)

/-- Untyped 2-d numpy array: a shape and an entry function (entries
outside the shape are irrelevant to the shape analysis below). -/
structure NpMat where
  rows : ℕ
  cols : ℕ
  entry : ℕ → ℕ → ℝ

/-- Numpy broadcast compatibility of one dimension pair: equal sizes, or
one of them is `1`. -/
def dimCompat (a b : ℕ) : Bool := a == b || a == 1 || b == 1

/-- Index into a possibly-broadcast dimension: a size-`1` dimension is
read at index `0`. -/
def bcIdx (d i : ℕ) : ℕ := if d = 1 then 0 else i

/-- Elementwise product `X * Y` with numpy 2-d broadcasting; `none` when
the shapes are incompatible (numpy raises a broadcast `ValueError`). -/
def npMul (X Y : NpMat) : Option NpMat :=
  if dimCompat X.rows Y.rows && dimCompat X.cols Y.cols then
    some ⟨max X.rows Y.rows, max X.cols Y.cols, fun i j =>
      X.entry (bcIdx X.rows i) (bcIdx X.cols j) *
        Y.entry (bcIdx Y.rows i) (bcIdx Y.cols j)⟩
  else none

/-- `np.repeat(X, k, axis = 1)`: each column repeated `k` times. -/
def npRepeatCols (X : NpMat) (k : ℕ) : NpMat :=
  ⟨X.rows, X.cols * k, fun i j => X.entry i (j / k)⟩

/-- Numpy transpose `X.T`. -/
def npT (X : NpMat) : NpMat := ⟨X.cols, X.rows, fun i j => X.entry j i⟩

/-- The cell-5 reconstruction line
`pi = (K * A) * np.repeat(B, 5, axis = 1).T` with its hard-coded `5`,
on untyped numpy arrays. -/
def cell5Pi (K A B : NpMat) : Option NpMat :=
  (npMul K A).bind fun KA_ => npMul KA_ (npT (npRepeatCols B 5))

end IPFP

namespace IPFP

/-- C2: in the stabilized log-domain variant, after subtracting the
row-wise max `vstar i = max_j (Φ i j - v j)` in the `u`-update and the
column-wise max `ustar j = max_i (Φ i j - u i)` in the `v`-update (where
`u` is the freshly updated potential of the same iteration), every
argument passed to `exp` is `≤ 0`, at every iteration (i.e. from any
loop state), for every finite `Φ` and every `σ > 0`. -/
theorem stab_exp_arguments_nonpos {n m : ℕ} [NeZero n] [NeZero m]
    (σ : ℝ) (hσ : 0 < σ) (Φ : Fin n → Fin m → ℝ) (p : Fin n → ℝ)
    (q : Fin m → ℝ) (s : StabState n m) :
    (∀ i j, (Φ i j - s.v j - rowShift Φ s.v i) / σ ≤ 0) ∧
    (∀ i j,
      (Φ i j - (stabStep σ Φ p q s).u i -
        colShift Φ (stabStep σ Φ p q s).u j) / σ ≤ 0) := by
  constructor
  · intro i j
    apply div_nonpos_of_nonpos_of_nonneg _ hσ.le
    have h := Finset.le_sup' (fun j' => Φ i j' - s.v j') (Finset.mem_univ j)
    simpa [rowShift, vmax, sub_nonpos] using h
  · intro i j
    apply div_nonpos_of_nonpos_of_nonneg _ hσ.le
    have h := Finset.le_sup'
      (fun i' => Φ i' j - (stabStep σ Φ p q s).u i') (Finset.mem_univ i)
    simpa [colShift, vmax, sub_nonpos] using h

/-- Witness for `stab_exp_arguments_nonpos` at a concrete instance. -/
theorem stab_exp_arguments_nonpos_witness :
    ((0 : ℝ) - (stabInit 1 1 0).v 0 -
      rowShift (n := 1) (m := 1) (fun _ _ => (0 : ℝ))
        (stabInit 1 1 0).v 0) / 1 ≤ 0 ∧
    ((0 : ℝ) -
      (stabStep 1 (fun _ _ => (0 : ℝ)) (fun _ => 1) (fun _ => 1)
        (stabInit 1 1 0)).u 0 -
      colShift (n := 1) (m := 1) (fun _ _ => (0 : ℝ))
        (stabStep 1 (fun _ _ => (0 : ℝ)) (fun _ => 1) (fun _ => 1)
          (stabInit 1 1 0)).u 0) / 1 ≤ 0 :=
  ⟨(stab_exp_arguments_nonpos 1 (by norm_num) (fun _ _ => (0 : ℝ))
      (fun _ => 1) (fun _ => 1) (stabInit 1 1 0)).1 0 0,
   (stab_exp_arguments_nonpos 1 (by norm_num) (fun _ _ => (0 : ℝ))
      (fun _ => 1) (fun _ => 1) (stabInit 1 1 0)).2 0 0⟩

/-- C7 (gauge invariance): shifting a dual pair by `(u + c, v - c)`
leaves the coupling `π i j = exp((Φ i j - u i - v j)/σ)` of cells 6 and
7, and the objective computed from it, unchanged — for every `σ`, `Φ`,
`u`, `v` and constant `c`. -/
theorem gauge_invariance {n m : ℕ} (σ : ℝ) (Φ : Fin n → Fin m → ℝ)
    (u : Fin n → ℝ) (v : Fin m → ℝ) (c : ℝ) :
    logPi σ Φ (fun i => u i + c) (fun j => v j - c) = logPi σ Φ u v ∧
    objective σ Φ (logPi σ Φ (fun i => u i + c) (fun j => v j - c)) =
      objective σ Φ (logPi σ Φ u v) := by
  have hpi : logPi σ Φ (fun i => u i + c) (fun j => v j - c)
      = logPi σ Φ u v := by
    funext i j
    simp only [logPi]
    ring_nf
  exact ⟨hpi, by rw [hpi]⟩

/-- C1 (supporting fact): in exact real arithmetic every entry of the
stabilized variant's coupling `π i j = exp((Φ i j - u i - v j)/σ)` is
strictly positive, so `log (π i j)` and the objective are well-defined
real numbers; the `nan` objective recorded in the notebook arises only
from float64 underflow of these entries to `0`, not from the
mathematics the spec describes. -/
theorem stabPi_entries_pos {n m : ℕ} (σ : ℝ) (Φ : Fin n → Fin m → ℝ)
    (u : Fin n → ℝ) (v : Fin m → ℝ) :
    ∀ i j, 0 < logPi σ Φ u v i j :=
  fun _ _ => Real.exp_pos _

/-- A dimension is broadcast-compatible with itself. -/
lemma dimCompat_self (a : ℕ) : dimCompat a a = true := by
  simp [dimCompat]

/-- A size-1 dimension on the right is broadcast-compatible. -/
lemma dimCompat_one_right (a : ℕ) : dimCompat a 1 = true := by
  simp [dimCompat]

/-- `max c 1` is broadcast-compatible with `c`. -/
lemma dimCompat_max_one (c : ℕ) : dimCompat (max c 1) c = true := by
  rcases c with _ | c
  · decide
  · simp [dimCompat, Nat.max_eq_left (Nat.succ_le_succ (Nat.zero_le c))]

/-- Unequal dimensions, neither of size 1, are broadcast-incompatible. -/
lemma dimCompat_eq_false {a b : ℕ} (hab : a ≠ b) (ha : a ≠ 1)
    (hb : b ≠ 1) : dimCompat a b = false := by
  simp [dimCompat, hab, ha, hb]

/-- C9 (amended): shape analysis of the cell-5 reconstruction line with
its hard-coded `5`.  With `K : n × m`, `A : n × 1`, `B : m × 1`: the
elementwise product forming `π` is a broadcast error (the computation
fails) for every row dimension `n` other than `5` and `1`; it is
accepted when `n = 5` — and also, by numpy broadcasting against the
size-1 dimension, when `n = 1` (producing a 5-row array), so the claim
that it fails for every `n ≠ 5` is too strong by exactly the `n = 1`
case. -/
theorem cell5Pi_shape {n : ℕ} (K A B : NpMat) (hKr : K.rows = n)
    (hAr : A.rows = n) (hAc : A.cols = 1) (hBr : B.rows = K.cols)
    (hBc : B.cols = 1) :
    (n ≠ 5 → n ≠ 1 → cell5Pi K A B = none) ∧
    (n = 5 → (cell5Pi K A B).isSome = true) := by
  have hmul1 : npMul K A = some ⟨max K.rows A.rows, max K.cols A.cols,
      fun i j => K.entry (bcIdx K.rows i) (bcIdx K.cols j) *
        A.entry (bcIdx A.rows i) (bcIdx A.cols j)⟩ := by
    unfold npMul
    rw [if_pos]
    rw [hKr, hAr, hAc, dimCompat_self, dimCompat_one_right]
    rfl
  have hrows : max K.rows A.rows = n := by rw [hKr, hAr, Nat.max_self]
  have hT : npT (npRepeatCols B 5) =
      ⟨B.cols * 5, B.rows, fun i j => B.entry j (i / 5)⟩ := rfl
  have hstep : cell5Pi K A B =
      npMul ⟨max K.rows A.rows, max K.cols A.cols,
        fun i j => K.entry (bcIdx K.rows i) (bcIdx K.cols j) *
          A.entry (bcIdx A.rows i) (bcIdx A.cols j)⟩
        (npT (npRepeatCols B 5)) := by
    unfold cell5Pi
    rw [hmul1, Option.some_bind]
  constructor
  · intro h5 h1
    rw [hstep]
    unfold npMul
    rw [if_neg]
    rw [hT]
    simp only [bne_iff_ne, ne_eq]
    rw [hrows, hBc]
    intro hcond
    have : dimCompat n (1 * 5) = false :=
      dimCompat_eq_false (by simpa using h5) h1 (by norm_num)
    rw [this] at hcond
    simp at hcond
  · intro h5
    rw [hstep]
    unfold npMul
    rw [if_pos]
    · rfl
    · rw [hT]
      rw [hrows, hBc, hAc, h5, hBr]
      have h1 : dimCompat 5 (1 * 5) = true := by decide
      rw [h1, dimCompat_max_one]
      rfl

/-- Witness for `cell5Pi_shape`, at `n = 2`, `m = 3`: the reconstruction
line is a broadcast error there. -/
theorem cell5Pi_shape_witness :
    cell5Pi ⟨2, 3, fun _ _ => 1⟩ ⟨2, 1, fun _ _ => 1⟩
      ⟨3, 1, fun _ _ => 1⟩ = none :=
  (cell5Pi_shape (n := 2) _ _ _ rfl rfl rfl rfl rfl).1
    (by decide) (by decide)

/-- Unfolding of one cell-5 loop check. -/
lemma linLoop_succ {n m : ℕ} [NeZero m] (p : Fin n → ℝ) (q : Fin m → ℝ)
    (K : Fin n → Fin m → ℝ) (tol : ℝ) (maxite fuel : ℕ)
    (s : LinState n m) :
    linLoop p q K tol maxite (fuel + 1) s =
      if s.error > tol ∧ s.ite < maxite then
        linLoop p q K tol maxite fuel (linStep p q K s)
      else s := rfl

/-- The cell-5 loop never decreases the iteration counter. -/
lemma linLoop_ite_le {n m : ℕ} [NeZero m] (p : Fin n → ℝ)
    (q : Fin m → ℝ) (K : Fin n → Fin m → ℝ) (tol : ℝ) (maxite : ℕ) :
    ∀ (fuel : ℕ) (s : LinState n m),
      s.ite ≤ (linLoop p q K tol maxite fuel s).ite := by
  intro fuel
  induction fuel with
  | zero => intro s; exact le_rfl
  | succ f ih =>
    intro s
    rw [linLoop_succ]
    split
    · exact le_trans (Nat.le_succ s.ite) (ih (linStep p q K s))
    · exact le_rfl

/-- Unfolding of one cell-7 loop check. -/
lemma stabLoop_succ {n m : ℕ} [NeZero n] [NeZero m] (σ : ℝ)
    (Φ : Fin n → Fin m → ℝ) (p : Fin n → ℝ) (q : Fin m → ℝ) (tol : ℝ)
    (maxite fuel : ℕ) (s : StabState n m) :
    stabLoop σ Φ p q tol maxite (fuel + 1) s =
      if s.error > (tol : EReal) ∧ s.ite < maxite then
        stabLoop σ Φ p q tol maxite fuel (stabStep σ Φ p q s)
      else s := rfl

/-- The cell-7 loop never decreases the iteration counter. -/
lemma stabLoop_ite_le {n m : ℕ} [NeZero n] [NeZero m] (σ : ℝ)
    (Φ : Fin n → Fin m → ℝ) (p : Fin n → ℝ) (q : Fin m → ℝ) (tol : ℝ)
    (maxite : ℕ) :
    ∀ (fuel : ℕ) (s : StabState n m),
      s.ite ≤ (stabLoop σ Φ p q tol maxite fuel s).ite := by
  intro fuel
  induction fuel with
  | zero => intro s; exact le_rfl
  | succ f ih =>
    intro s
    rw [stabLoop_succ]
    split
    · exact le_trans (Nat.le_succ s.ite) (ih (stabStep σ Φ p q s))
    · exact le_rfl

/-- A cell-7 step taken from a state whose previous-iterate record is
`-∞` everywhere (as after initialization) reports error `+∞`,
whatever the inputs. -/
lemma stabStep_error_top {n m : ℕ} [NeZero n] [NeZero m] (σ : ℝ)
    (Φ : Fin n → Fin m → ℝ) (p : Fin n → ℝ) (q : Fin m → ℝ)
    (s : StabState n m) (hs : ∀ i, s.uprec i = ⊥) :
    (stabStep σ Φ p q s).error = ⊤ := by
  have hrepr : (stabStep σ Φ p q s).error =
      Finset.univ.sup' Finset.univ_nonempty (fun i =>
        eabs (((stabStep σ Φ p q s).u i : EReal) - s.uprec i)) := rfl
  rw [hrepr]
  apply le_antisymm le_top
  obtain ⟨i, -⟩ := (Finset.univ_nonempty (α := Fin n)).exists_mem
  have hterm : eabs (((stabStep σ Φ p q s).u i : EReal) - s.uprec i)
      = ⊤ := by
    rw [hs i, EReal.coe_sub_bot, eabs, max_eq_left le_top]
  calc (⊤ : EReal)
      = eabs (((stabStep σ Φ p q s).u i : EReal) - s.uprec i) :=
        hterm.symm
    _ ≤ _ := Finset.le_sup'
        (fun i' => eabs (((stabStep σ Φ p q s).u i' : EReal) -
          s.uprec i')) (Finset.mem_univ i)

/-- C6 (amended): the loops perform no input validation at all: on every
input — valid or not — with a positive iteration cap, both the cell-5
linear-domain solve and the cell-7 stabilized solve enter the loop and
execute at least one iteration; no InvalidInput error and no fail-fast
path exist in the code. -/
theorem no_input_validation {n m : ℕ} [NeZero n] [NeZero m] (σ : ℝ)
    (Φ : Fin n → Fin m → ℝ) (p : Fin n → ℝ) (q : Fin m → ℝ) (tol : ℝ)
    (maxite : ℕ) (h : 1 ≤ maxite) :
    1 ≤ (linSolve p q (kernel σ Φ) tol maxite).ite ∧
    1 ≤ (stabSolve σ Φ p q tol maxite).ite := by
  obtain ⟨f, rfl⟩ : ∃ f, maxite = f + 1 := ⟨maxite - 1, by omega⟩
  constructor
  · unfold linSolve
    rw [linLoop_succ, if_pos ⟨lt_add_one tol, Nat.succ_pos f⟩]
    calc (1 : ℕ)
        = (linStep p q (kernel σ Φ) (linInit n m tol)).ite := rfl
      _ ≤ _ := linLoop_ite_le p q (kernel σ Φ) tol (f + 1) f _
  · unfold stabSolve
    rw [stabLoop_succ,
      if_pos ⟨EReal.coe_lt_coe_iff.2 (lt_add_one tol), Nat.succ_pos f⟩]
    calc (1 : ℕ)
        = (stabStep σ Φ p q (stabInit n m tol)).ite := rfl
      _ ≤ _ := stabLoop_ite_le σ Φ p q tol (f + 1) f _

/-- Witness for `no_input_validation`: on the invalid input with
`p = (2, -1)` (negative entry), `q = (1)`, `σ = 1`, `Φ = 0`, `tol = 0`
and cap `1`, both solves still perform an iteration. -/
theorem no_input_validation_witness :
    (![2, -1] : Fin 2 → ℝ) 1 < 0 ∧
    (1 ≤ (linSolve ![2, -1] ![1]
        (kernel 1 (fun _ _ => (0 : ℝ))) 0 1).ite ∧
     1 ≤ (stabSolve (n := 2) (m := 1) 1 (fun _ _ => (0 : ℝ))
        ![2, -1] ![1] 0 1).ite) :=
  ⟨by norm_num,
   no_input_validation 1 (fun _ _ => (0 : ℝ)) ![2, -1] ![1] 0 1
     (le_refl 1)⟩

/-- C6 (counterexample): on the invalid input with `p = (2, -1)` —
a negative entry, so the claim demands an immediate InvalidInput
failure with no iteration performed — the cell-5 solve nevertheless
executes its loop body: the returned iteration count is `1`, not `0`,
so the code does not fail fast on invalid input. -/
theorem no_fail_fast_counterexample :
    (![2, -1] : Fin 2 → ℝ) 1 < 0 ∧
    (linSolve ![2, -1] ![1]
      (kernel 1 (fun _ _ => (0 : ℝ))) 0 1).ite = 1 := by
  refine ⟨by norm_num, ?_⟩
  unfold linSolve
  rw [linLoop_succ, if_pos ⟨lt_add_one (0 : ℝ), Nat.one_pos⟩]
  rfl

/-- C10: the cell-7 loop initializes `uprec` to `-∞`, so the error
reported by the first iteration is `+∞` regardless of the inputs, and
for every cap `maxite ≥ 2` the loop cannot exit after a single
iteration: the final iteration count is at least `2`. -/
theorem stab_never_stops_after_one {n m : ℕ} [NeZero n] [NeZero m]
    (σ : ℝ) (Φ : Fin n → Fin m → ℝ) (p : Fin n → ℝ) (q : Fin m → ℝ)
    (tol : ℝ) (maxite : ℕ) (h2 : 2 ≤ maxite) :
    (stabStep σ Φ p q (stabInit n m tol)).error = ⊤ ∧
    2 ≤ (stabSolve σ Φ p q tol maxite).ite := by
  have herr : (stabStep σ Φ p q (stabInit n m tol)).error = ⊤ :=
    stabStep_error_top σ Φ p q _ (fun _ => rfl)
  refine ⟨herr, ?_⟩
  obtain ⟨f, rfl⟩ : ∃ f, maxite = f + 2 := ⟨maxite - 2, by omega⟩
  unfold stabSolve
  have hite0 : (stabInit n m tol).ite = 0 := rfl
  have hite : (stabStep σ Φ p q (stabInit n m tol)).ite = 1 := rfl
  rw [stabLoop_succ,
    if_pos ⟨EReal.coe_lt_coe_iff.2 (lt_add_one tol),
      by rw [hite0]; omega⟩]
  rw [stabLoop_succ,
    if_pos ⟨by rw [herr]; exact EReal.coe_lt_top tol,
      by rw [hite]; omega⟩]
  have h2' :
      (stabStep σ Φ p q (stabStep σ Φ p q (stabInit n m tol))).ite
        = 2 := rfl
  calc (2 : ℕ)
      = (stabStep σ Φ p q (stabStep σ Φ p q (stabInit n m tol))).ite :=
        h2'.symm
    _ ≤ _ := stabLoop_ite_le σ Φ p q tol (f + 2) f _

/-- Witness for `stab_never_stops_after_one` at a concrete instance. -/
theorem stab_never_stops_after_one_witness :
    (stabStep (n := 1) (m := 1) 1 (fun _ _ => (0 : ℝ)) (fun _ => 1)
      (fun _ => 1) (stabInit 1 1 0)).error = ⊤ ∧
    2 ≤ (stabSolve (n := 1) (m := 1) 1 (fun _ _ => (0 : ℝ))
      (fun _ => 1) (fun _ => 1) 0 2).ite :=
  stab_never_stops_after_one 1 (fun _ _ => (0 : ℝ)) (fun _ => 1)
    (fun _ => 1) 0 2 (le_refl 2)

/-- The cell-5 row rescale `A = two_d(p/(K @ B).flatten())`. -/
def linAUpdate {n m : ℕ} (p : Fin n → ℝ) (K : Fin n → Fin m → ℝ)
    (B : Fin m → ℝ) : Fin n → ℝ :=
  fun i => p i / ∑ j, K i j * B j

/-- The cell-5 convergence error
`np.max(abs(np.multiply(KA, B.flatten()/q) - 1))`, a function of the
freshly updated `A` and the not-yet-updated `B`. -/
def linError {n m : ℕ} [NeZero m] (q : Fin m → ℝ)
    (K : Fin n → Fin m → ℝ) (A : Fin n → ℝ) (B : Fin m → ℝ) : ℝ :=
  vmax fun j => |(∑ i, A i * K i j) * (B j / q j) - 1|

/-- The cell-5 column rescale `B = (q / KA).T`. -/
def linBUpdate {n m : ℕ} (q : Fin m → ℝ) (K : Fin n → Fin m → ℝ)
    (A : Fin n → ℝ) : Fin m → ℝ :=
  fun j => q j / ∑ i, A i * K i j

/-- The cell-5 loop result always satisfies the exit disjunction or
exhausts its fuel. -/
lemma linLoop_exit {n m : ℕ} [NeZero m] (p : Fin n → ℝ) (q : Fin m → ℝ)
    (K : Fin n → Fin m → ℝ) (tol : ℝ) (maxite : ℕ) :
    ∀ (fuel : ℕ) (s : LinState n m),
      (linLoop p q K tol maxite fuel s).error ≤ tol ∨
      maxite ≤ (linLoop p q K tol maxite fuel s).ite ∨
      (linLoop p q K tol maxite fuel s).ite = s.ite + fuel := by
  intro fuel
  induction fuel with
  | zero => intro s; exact Or.inr (Or.inr rfl)
  | succ f ih =>
    intro s
    rw [linLoop_succ]
    by_cases hc : s.error > tol ∧ s.ite < maxite
    · rw [if_pos hc]
      rcases ih (linStep p q K s) with h | h | h
      · exact Or.inl h
      · exact Or.inr (Or.inl h)
      · refine Or.inr (Or.inr ?_)
        rw [h]
        have : (linStep p q K s).ite = s.ite + 1 := rfl
        omega
    · rw [if_neg hc]
      rcases not_and_or.1 hc with h | h
      · exact Or.inl (le_of_not_lt h)
      · exact Or.inr (Or.inl (le_of_not_lt h))

/-- C4: each iteration of the cell-5 linear-domain engine performs, in
order, the row rescale `A = p/(K B)` using the previous `B`, then the
convergence error `max_j |(Σ_i A i K i j) (B j / q j) - 1|` with the
freshly updated `A` and the not-yet-updated `B`, then the column rescale
`B = q/(Kᵀ A)` with the freshly updated `A` (Gauss–Seidel order); and
the loop exits exactly when the error is `≤ tol` or the iteration count
reaches the cap: the run's result has error `≤ tol` or `ite ≥ maxite`,
and a state already satisfying the exit condition is returned
unchanged. -/
theorem lin_iteration_order {n m : ℕ} [NeZero m] (p : Fin n → ℝ)
    (q : Fin m → ℝ) (K : Fin n → Fin m → ℝ) (tol : ℝ) (maxite : ℕ) :
    (∀ s : LinState n m,
      linStep p q K s =
        ⟨linAUpdate p K s.B,
         linBUpdate q K (linAUpdate p K s.B),
         linError q K (linAUpdate p K s.B) s.B,
         s.ite + 1⟩) ∧
    ((linSolve p q K tol maxite).error ≤ tol ∨
      maxite ≤ (linSolve p q K tol maxite).ite) ∧
    (∀ (fuel : ℕ) (s : LinState n m),
      ¬(s.error > tol ∧ s.ite < maxite) →
      linLoop p q K tol maxite (fuel + 1) s = s) := by
  refine ⟨fun s => rfl, ?_, ?_⟩
  · rcases linLoop_exit p q K tol maxite maxite (linInit n m tol)
      with h | h | h
    · exact Or.inl h
    · exact Or.inr h
    · refine Or.inr ?_
      unfold linSolve
      rw [h]
      have : (linInit n m tol).ite = 0 := rfl
      omega
  · intro fuel s hs
    rw [linLoop_succ, if_neg hs]

/-- Witness for `lin_iteration_order`: at a concrete instance with
`maxite = 0`, a state failing the loop condition is returned
unchanged. -/
theorem lin_iteration_order_witness :
    linLoop ![(1 : ℝ)] ![(1 : ℝ)] (fun _ _ => (1 : ℝ)) 0 0 1
      (linInit 1 1 0) = linInit 1 1 0 :=
  (lin_iteration_order ![(1 : ℝ)] ![(1 : ℝ)] (fun _ _ => (1 : ℝ))
      0 0).2.2 0 (linInit 1 1 0) (by simp [linInit])

/-- A sum of positive terms over a nonempty `Fin` type is positive. -/
lemma sum_pos_of_pos {k : ℕ} [NeZero k] (f : Fin k → ℝ)
    (hf : ∀ j, 0 < f j) : 0 < ∑ j, f j :=
  Finset.sum_pos (fun j _ => hf j) Finset.univ_nonempty

/-- A sum of exponentials over a nonempty `Fin` type is positive. -/
lemma sum_exp_pos {k : ℕ} [NeZero k] (f : Fin k → ℝ) :
    0 < ∑ j, Real.exp (f j) :=
  sum_pos_of_pos _ (fun j => Real.exp_pos (f j))

/-- The scaling vector `A` produced by a cell-5 step is positive when
`p`, `K` and the incoming `B` are. -/
lemma linStep_A_pos {n m : ℕ} [NeZero m] (p : Fin n → ℝ)
    (q : Fin m → ℝ) (K : Fin n → Fin m → ℝ) (hp : ∀ i, 0 < p i)
    (hK : ∀ i j, 0 < K i j) (t : LinState n m) (ht : ∀ j, 0 < t.B j) :
    ∀ i, 0 < (linStep p q K t).A i := by
  intro i
  exact div_pos (hp i)
    (sum_pos_of_pos _ (fun j' => mul_pos (hK i j') (ht j')))

/-- After a cell-5 step from a state with positive `B`, the column sums
of the implied coupling `π i j = K i j * A i * B j` equal `q`
exactly. -/
lemma linStep_colsum {n m : ℕ} [NeZero n] [NeZero m] (p : Fin n → ℝ)
    (q : Fin m → ℝ) (K : Fin n → Fin m → ℝ) (hp : ∀ i, 0 < p i)
    (hK : ∀ i j, 0 < K i j) (t : LinState n m)
    (ht : ∀ j, 0 < t.B j) :
    ∀ j, ∑ i, linPi K (linStep p q K t) i j = q j := by
  intro j
  have hA : ∀ i, 0 < (linStep p q K t).A i :=
    linStep_A_pos p q K hp hK t ht
  have hKA : 0 < ∑ i, (linStep p q K t).A i * K i j :=
    sum_pos_of_pos _ (fun i => mul_pos (hA i) (hK i j))
  have hB : (linStep p q K t).B j =
      q j / ∑ i, (linStep p q K t).A i * K i j := rfl
  calc ∑ i, linPi K (linStep p q K t) i j
      = (∑ i, (linStep p q K t).A i * K i j) *
          (linStep p q K t).B j := by
        rw [Finset.sum_mul]
        exact Finset.sum_congr rfl (fun i _ => by rw [linPi]; ring)
    _ = q j := by
        rw [hB, mul_div_cancel₀ (q j) (ne_of_gt hKA)]

/-- After a cell-7 step, the column sums of the coupling
`π i j = exp((Φ i j - u i - v j)/σ)` computed from the step's `u` and
`v` equal `q` exactly, because the `v`-update is performed after the
error check, from the freshly updated `u`. -/
lemma stabStep_colsum {n m : ℕ} [NeZero n] [NeZero m] (σ : ℝ)
    (hσ : σ ≠ 0) (Φ : Fin n → Fin m → ℝ) (p : Fin n → ℝ)
    (q : Fin m → ℝ) (hq : ∀ j, 0 < q j) (s : StabState n m) :
    ∀ j, ∑ i, logPi σ Φ (stabStep σ Φ p q s).u
      (stabStep σ Φ p q s).v i j = q j := by
  intro j
  set u : Fin n → ℝ := (stabStep σ Φ p q s).u with hu
  set KA : ℝ := ∑ i, Real.exp ((Φ i j - u i - colShift Φ u j) / σ)
    with hKA
  have hKApos : 0 < KA := sum_exp_pos _
  have hv : (stabStep σ Φ p q s).v j =
      nuOf σ q j + colShift Φ u j + σ * Real.log KA := rfl
  have hshift :
      Real.exp ((colShift Φ u j - (stabStep σ Φ p q s).v j) / σ) =
        q j / KA := by
    rw [hv]
    have harg : (colShift Φ u j -
        (nuOf σ q j + colShift Φ u j + σ * Real.log KA)) / σ =
        Real.log (q j) - Real.log KA := by
      rw [nuOf]
      field_simp
      ring
    rw [harg, Real.exp_sub, Real.exp_log (hq j), Real.exp_log hKApos]
  have hsplit : ∀ i, logPi σ Φ u (stabStep σ Φ p q s).v i j =
      Real.exp ((Φ i j - u i - colShift Φ u j) / σ) *
        Real.exp ((colShift Φ u j - (stabStep σ Φ p q s).v j) / σ) := by
    intro i
    rw [logPi, ← Real.exp_add]
    congr 1
    field_simp
  calc ∑ i, logPi σ Φ u (stabStep σ Φ p q s).v i j
      = (∑ i, Real.exp ((Φ i j - u i - colShift Φ u j) / σ)) *
          (q j / KA) := by
        rw [Finset.sum_mul]
        exact Finset.sum_congr rfl
          (fun i _ => by rw [hsplit i, hshift])
    _ = q j := by
        rw [← hKA, mul_div_cancel₀ (q j) (ne_of_gt hKApos)]

/-- A cell-5 step preserves positivity of `B` when `p`, `q` and `K`
are positive. -/
lemma linStep_B_pos {n m : ℕ} [NeZero n] [NeZero m] (p : Fin n → ℝ)
    (q : Fin m → ℝ) (K : Fin n → Fin m → ℝ) (hp : ∀ i, 0 < p i)
    (hq : ∀ j, 0 < q j) (hK : ∀ i j, 0 < K i j) (t : LinState n m)
    (ht : ∀ j, 0 < t.B j) :
    ∀ j, 0 < (linStep p q K t).B j := by
  intro j
  have hA : ∀ i, 0 < (linStep p q K t).A i :=
    linStep_A_pos p q K hp hK t ht
  exact div_pos (hq j)
    (sum_pos_of_pos _ (fun i => mul_pos (hA i) (hK i j)))

/-- Any state reached by the cell-5 loop from a positive-`B` state is
that state itself, or the image under `linStep` of a positive-`B`
state. -/
lemma linLoop_reach {n m : ℕ} [NeZero n] [NeZero m] (p : Fin n → ℝ)
    (q : Fin m → ℝ) (K : Fin n → Fin m → ℝ) (tol : ℝ) (maxite : ℕ)
    (hp : ∀ i, 0 < p i) (hq : ∀ j, 0 < q j) (hK : ∀ i j, 0 < K i j) :
    ∀ (fuel : ℕ) (s : LinState n m), (∀ j, 0 < s.B j) →
      linLoop p q K tol maxite fuel s = s ∨
      ∃ t : LinState n m, (∀ j, 0 < t.B j) ∧
        linLoop p q K tol maxite fuel s = linStep p q K t := by
  intro fuel
  induction fuel with
  | zero => intro s _; exact Or.inl rfl
  | succ f ih =>
    intro s hs
    rw [linLoop_succ]
    by_cases hc : s.error > tol ∧ s.ite < maxite
    · rw [if_pos hc]
      rcases ih (linStep p q K s)
          (linStep_B_pos p q K hp hq hK s hs) with h | ⟨t, ht, h⟩
      · exact Or.inr ⟨s, hs, h⟩
      · exact Or.inr ⟨t, ht, h⟩
    · rw [if_neg hc]
      exact Or.inl rfl

/-- After a cell-5 step with error below tolerance, every row sum of
the implied coupling is within a relative factor `tol` of the
corresponding entry of `p`. -/
lemma linStep_rowsum_close {n m : ℕ} [NeZero n] [NeZero m]
    (p : Fin n → ℝ) (q : Fin m → ℝ) (K : Fin n → Fin m → ℝ) (tol : ℝ)
    (hp : ∀ i, 0 < p i) (hq : ∀ j, 0 < q j) (hK : ∀ i j, 0 < K i j)
    (t : LinState n m) (ht : ∀ j, 0 < t.B j)
    (herr : (linStep p q K t).error ≤ tol) :
    ∀ i, |(∑ j, linPi K (linStep p q K t) i j) - p i| ≤
      tol * ∑ j, linPi K (linStep p q K t) i j := by
  intro i
  have hA : ∀ i', 0 < (linStep p q K t).A i' :=
    linStep_A_pos p q K hp hK t ht
  have hKA : ∀ j, 0 < ∑ i', (linStep p q K t).A i' * K i' j :=
    fun j => sum_pos_of_pos _ (fun i' => mul_pos (hA i') (hK i' j))
  have hBn : ∀ j, (linStep p q K t).B j =
      q j / ∑ i', (linStep p q K t).A i' * K i' j := fun j => rfl
  have hBnpos : ∀ j, 0 < (linStep p q K t).B j :=
    fun j => (hBn j) ▸ div_pos (hq j) (hKA j)
  -- the measured error bounds each column component
  have h1 : ∀ j, |(∑ i', (linStep p q K t).A i' * K i' j) *
      (t.B j / q j) - 1| ≤ tol := by
    intro j
    have hrepr : (linStep p q K t).error =
        vmax fun j' => |(∑ i', (linStep p q K t).A i' * K i' j') *
          (t.B j' / q j') - 1| := rfl
    refine le_trans ?_ (hrepr ▸ herr)
    exact Finset.le_sup'
      (fun j' => |(∑ i', (linStep p q K t).A i' * K i' j') *
        (t.B j' / q j') - 1|) (Finset.mem_univ j)
  -- hence the previous B is within relative tol of the new B
  have h2 : ∀ j, |t.B j - (linStep p q K t).B j| ≤
      tol * (linStep p q K t).B j := by
    intro j
    have h1j := h1 j
    set KAj := ∑ i', (linStep p q K t).A i' * K i' j with hKAj
    have e1 : KAj * (t.B j / q j) - 1 = (KAj * t.B j - q j) / q j := by
      rw [sub_div, div_self (ne_of_gt (hq j)), mul_div_assoc]
    rw [e1, abs_div, abs_of_pos (hq j), div_le_iff₀ (hq j)] at h1j
    have e2 : KAj * (linStep p q K t).B j = q j := by
      rw [hBn j, ← hKAj, mul_div_cancel₀ (q j) (ne_of_gt (hKA j))]
    have e3 : KAj * t.B j - q j =
        KAj * (t.B j - (linStep p q K t).B j) := by
      rw [← e2]; ring
    rw [e3, abs_mul, abs_of_pos (hKA j)] at h1j
    have h1j' : KAj * |t.B j - (linStep p q K t).B j| ≤
        KAj * (tol * (linStep p q K t).B j) := by
      calc KAj * |t.B j - (linStep p q K t).B j| ≤
          tol * q j := h1j
        _ = KAj * (tol * (linStep p q K t).B j) := by rw [← e2]; ring
    exact le_of_mul_le_mul_left h1j' (hKA j)
  -- the previous B reproduces p exactly in each row
  have h3 : p i = ∑ j, K i j * (linStep p q K t).A i * t.B j := by
    have hD : 0 < ∑ j, K i j * t.B j :=
      sum_pos_of_pos _ (fun j => mul_pos (hK i j) (ht j))
    have hAi : (linStep p q K t).A i = p i / ∑ j, K i j * t.B j := rfl
    calc p i = (p i / ∑ j, K i j * t.B j) * ∑ j, K i j * t.B j := by
          rw [div_mul_cancel₀ (p i) (ne_of_gt hD)]
      _ = ∑ j, K i j * (linStep p q K t).A i * t.B j := by
          rw [hAi, Finset.mul_sum]
          exact Finset.sum_congr rfl (fun j _ => by ring)
  -- assemble the row bound
  have hdiff : (∑ j, linPi K (linStep p q K t) i j) - p i =
      ∑ j, K i j * (linStep p q K t).A i *
        ((linStep p q K t).B j - t.B j) := by
    rw [h3, ← Finset.sum_sub_distrib]
    exact Finset.sum_congr rfl (fun j _ => by rw [linPi]; ring)
  rw [hdiff]
  calc |∑ j, K i j * (linStep p q K t).A i *
      ((linStep p q K t).B j - t.B j)|
      ≤ ∑ j, |K i j * (linStep p q K t).A i *
        ((linStep p q K t).B j - t.B j)| :=
        Finset.abs_sum_le_sum_abs _ _
    _ ≤ ∑ j, K i j * (linStep p q K t).A i *
        (tol * (linStep p q K t).B j) := by
        refine Finset.sum_le_sum (fun j _ => ?_)
        rw [abs_mul, abs_of_pos (mul_pos (hK i j) (hA i)),
          abs_sub_comm]
        exact mul_le_mul_of_nonneg_left (h2 j)
          (le_of_lt (mul_pos (hK i j) (hA i)))
    _ = tol * ∑ j, linPi K (linStep p q K t) i j := by
        rw [Finset.mul_sum]
        exact Finset.sum_congr rfl (fun j _ => by rw [linPi]; ring)

/-- C3: whenever the cell-5 solve exits with status Converged (the
iteration count below the cap), the returned coupling has every column
sum exactly equal to `q` and every row sum within a relative factor
`tol` of the corresponding entry of `p` — the marginal violation is
within the given tolerance. -/
theorem converged_marginals {n m : ℕ} [NeZero n] [NeZero m] (σ : ℝ)
    (Φ : Fin n → Fin m → ℝ) (p : Fin n → ℝ) (q : Fin m → ℝ) (tol : ℝ)
    (maxite : ℕ) (hp : ∀ i, 0 < p i) (hq : ∀ j, 0 < q j)
    (r : LinState n m) (hr : r = linSolve p q (kernel σ Φ) tol maxite)
    (hconv : r.ite < maxite) :
    (∀ j, ∑ i, linPi (kernel σ Φ) r i j = q j) ∧
    (∀ i, |(∑ j, linPi (kernel σ Φ) r i j) - p i| ≤
      tol * ∑ j, linPi (kernel σ Φ) r i j) := by
  have hK : ∀ i j, 0 < kernel σ Φ i j := fun _ _ => Real.exp_pos _
  have hsolve : linSolve p q (kernel σ Φ) tol maxite =
      linLoop p q (kernel σ Φ) tol maxite maxite (linInit n m tol) :=
    rfl
  have herr : r.error ≤ tol := by
    rcases linLoop_exit p q (kernel σ Φ) tol maxite maxite
        (linInit n m tol) with h | h | h
    · rwa [hr, hsolve]
    · rw [← hsolve, ← hr] at h; omega
    · rw [← hsolve, ← hr] at h
      have h0 : (linInit n m tol).ite = 0 := rfl
      omega
  rcases linLoop_reach p q (kernel σ Φ) tol maxite hp hq hK maxite
      (linInit n m tol) (fun _ => one_pos) with h | ⟨t, ht, h⟩
  · exfalso
    rw [← hsolve, ← hr] at h
    have : r.error = tol + 1 := by rw [h]; rfl
    rw [this] at herr
    exact absurd herr (not_le.2 (lt_add_one tol))
  · rw [← hsolve, ← hr] at h
    rw [h]
    refine ⟨linStep_colsum p q (kernel σ Φ) hp hK t ht, ?_⟩
    exact linStep_rowsum_close p q (kernel σ Φ) tol hp hq hK t ht
      (h ▸ herr)

/-- Witness for `converged_marginals`: a concrete run with `σ = 1`,
`Φ = 0`, `p = q = (1)`, `tol = 1/2`, cap `2`, which converges after one
iteration. -/
theorem converged_marginals_witness :
    (∑ i, linPi (kernel 1 (fun _ _ => (0 : ℝ)))
      (linSolve ![1] ![1] (kernel 1 (fun _ _ => (0 : ℝ))) (1/2) 2) i 0
      = (![1] : Fin 1 → ℝ) 0) ∧
    |(∑ j, linPi (kernel 1 (fun _ _ => (0 : ℝ)))
      (linSolve ![1] ![1] (kernel 1 (fun _ _ => (0 : ℝ))) (1/2) 2) 0 j)
        - (![1] : Fin 1 → ℝ) 0| ≤
      (1/2) * ∑ j, linPi (kernel 1 (fun _ _ => (0 : ℝ)))
        (linSolve ![1] ![1] (kernel 1 (fun _ _ => (0 : ℝ))) (1/2) 2)
          0 j := by
  have hs1 : (linStep ![1] ![1] (kernel 1 (fun _ _ => (0 : ℝ)))
      (linInit 1 1 (1/2))).error = 0 := by
    simp [linStep, vmax, linInit, kernel, Finset.univ_unique]
  have hconv : (linSolve ![1] ![1] (kernel 1 (fun _ _ => (0 : ℝ)))
      (1/2) 2).ite < 2 := by
    unfold linSolve
    rw [linLoop_succ,
      if_pos ⟨by show (1 : ℝ)/2 + 1 > 1/2; norm_num,
        by show (0 : ℕ) < 2; norm_num⟩]
    rw [linLoop_succ,
      if_neg (by rw [hs1]; intro h; exact absurd h.1 (by norm_num))]
    show (1 : ℕ) < 2
    norm_num
  have h := converged_marginals 1 (fun _ _ => (0 : ℝ)) ![1] ![1]
    (1/2) 2 (fun i => by fin_cases i; norm_num)
    (fun j => by fin_cases j; norm_num) _ rfl hconv
  exact ⟨h.1 0, h.2 0⟩

/-- C8: after every completed iteration of the cell-5 linear-domain
engine — in particular at loop exit — the column sums of the implied
coupling equal `q` exactly (in exact arithmetic), because `B` is
recomputed from the fresh `A` after the error is measured; and likewise
for the cell-7 stabilized variant, whose `v`-update follows the error
check on `u`. -/
theorem post_iteration_column_sums {n m : ℕ} [NeZero n] [NeZero m]
    (σ : ℝ) (Φ : Fin n → Fin m → ℝ) (p : Fin n → ℝ) (q : Fin m → ℝ)
    (hσ : 0 < σ) (hp : ∀ i, 0 < p i) (hq : ∀ j, 0 < q j) :
    (∀ t : LinState n m, (∀ j, 0 < t.B j) →
      ∀ j, ∑ i, linPi (kernel σ Φ) (linStep p q (kernel σ Φ) t) i j
        = q j) ∧
    (∀ s : StabState n m,
      ∀ j, ∑ i, logPi σ Φ (stabStep σ Φ p q s).u
        (stabStep σ Φ p q s).v i j = q j) :=
  ⟨fun t ht => linStep_colsum p q (kernel σ Φ) hp
      (fun _ _ => Real.exp_pos _) t ht,
   fun s => stabStep_colsum σ (ne_of_gt hσ) Φ p q hq s⟩

/-- Witness for `post_iteration_column_sums` at a concrete instance. -/
theorem post_iteration_column_sums_witness :
    (∑ i, linPi (kernel 1 (fun _ _ => (0 : ℝ)))
      (linStep ![1] ![1] (kernel 1 (fun _ _ => (0 : ℝ)))
        (linInit 1 1 0)) i 0 = (![1] : Fin 1 → ℝ) 0) ∧
    (∑ i, logPi 1 (fun _ _ => (0 : ℝ))
      (stabStep 1 (fun _ _ => (0 : ℝ)) ![1] ![1] (stabInit 1 1 0)).u
      (stabStep 1 (fun _ _ => (0 : ℝ)) ![1] ![1] (stabInit 1 1 0)).v
      i 0 = (![1] : Fin 1 → ℝ) 0) :=
  ⟨(post_iteration_column_sums 1 (fun _ _ => (0 : ℝ)) ![1] ![1]
      (by norm_num) (fun i => by fin_cases i; norm_num)
      (fun j => by fin_cases j; norm_num)).1 (linInit 1 1 0)
      (fun _ => one_pos) 0,
   (post_iteration_column_sums 1 (fun _ _ => (0 : ℝ)) ![1] ![1]
      (by norm_num) (fun i => by fin_cases i; norm_num)
      (fun j => by fin_cases j; norm_num)).2 (stabInit 1 1 0) 0⟩

/-- C9 (counterexample): for `n = 1 ≠ 5` rows the cell-5 reconstruction
line does not fail — numpy broadcasts the size-1 row dimension against
the hard-coded `5` — refuting the claim that the computation fails for
every `n ≠ 5`. -/
theorem cell5Pi_accepts_one_row :
    (NpMat.mk 1 3 fun _ _ => 1).rows ≠ 5 ∧
    (cell5Pi ⟨1, 3, fun _ _ => 1⟩ ⟨1, 1, fun _ _ => 1⟩
      ⟨3, 1, fun _ _ => 1⟩).isSome = true := by
  refine ⟨by decide, ?_⟩
  rfl

end IPFP

namespace IPFP

/-- The log-sum-exp shift identity: subtracting a constant `c` inside
the exponentials and adding it back outside leaves `σ·log Σ exp(·/σ)`
unchanged. -/
lemma shifted_logsum {k : ℕ} [NeZero k] (σ : ℝ) (hσ : σ ≠ 0)
    (f : Fin k → ℝ) (c : ℝ) :
    c + σ * Real.log (∑ j, Real.exp ((f j - c) / σ)) =
      σ * Real.log (∑ j, Real.exp (f j / σ)) := by
  have hsum : 0 < ∑ j, Real.exp (f j / σ) := sum_exp_pos _
  have hsplit : ∀ j : Fin k,
      Real.exp ((f j - c) / σ) =
        Real.exp (f j / σ) * Real.exp (-(c / σ)) := by
    intro j
    rw [← Real.exp_add, sub_div, sub_eq_add_neg]
  rw [Finset.sum_congr rfl (fun j _ => hsplit j), ← Finset.sum_mul,
    Real.log_mul (ne_of_gt hsum) (Real.exp_ne_zero _), Real.log_exp,
    mul_add, mul_neg, mul_div_cancel₀ c hσ]
  ring

/-- `exp(-(−σ·log a + σ·log S)/σ) = a / S` for positive `a`, `S`. -/
lemma exp_neg_dual (σ : ℝ) (hσ : σ ≠ 0) (a S : ℝ) (ha : 0 < a)
    (hS : 0 < S) :
    Real.exp (-(-σ * Real.log a + σ * Real.log S) / σ) = a / S := by
  have harg : -(-σ * Real.log a + σ * Real.log S) / σ =
      Real.log a - Real.log S := by
    field_simp
    ring
  rw [harg, Real.exp_sub, Real.exp_log ha, Real.exp_log hS]

/-- Multiplying a kernel entry by `exp(-x/σ)` folds into a single
exponential. -/
lemma kernel_mul_exp {n m : ℕ} (σ : ℝ) (Φ : Fin n → Fin m → ℝ)
    (x : ℝ) (i : Fin n) (j : Fin m) :
    kernel σ Φ i j * Real.exp (-x / σ) =
      Real.exp ((Φ i j - x) / σ) := by
  rw [kernel, ← Real.exp_add, sub_div, neg_div, sub_eq_add_neg]

/-- The `u` produced by a cell-7 step equals the plain log-domain
`u`-update of cell 6 on the same incoming `v`: the max subtraction
cancels exactly. -/
lemma stabStep_u_eq {n m : ℕ} [NeZero n] [NeZero m] (σ : ℝ)
    (hσ : σ ≠ 0) (Φ : Fin n → Fin m → ℝ) (p : Fin n → ℝ)
    (q : Fin m → ℝ) (s : StabState n m) :
    (stabStep σ Φ p q s).u = fun i =>
      muOf σ p i +
        σ * Real.log (∑ j, Real.exp ((Φ i j - s.v j) / σ)) := by
  funext i
  have hrepr : (stabStep σ Φ p q s).u i =
      muOf σ p i + rowShift Φ s.v i +
        σ * Real.log (∑ j,
          Real.exp ((Φ i j - s.v j - rowShift Φ s.v i) / σ)) := rfl
  rw [hrepr, add_assoc,
    shifted_logsum σ hσ (fun j => Φ i j - s.v j) (rowShift Φ s.v i)]

/-- The `v` produced by a cell-7 step equals the plain log-domain
`v`-update of cell 6 on the step's own fresh `u`. -/
lemma stabStep_v_eq {n m : ℕ} [NeZero n] [NeZero m] (σ : ℝ)
    (hσ : σ ≠ 0) (Φ : Fin n → Fin m → ℝ) (p : Fin n → ℝ)
    (q : Fin m → ℝ) (s : StabState n m) :
    (stabStep σ Φ p q s).v = fun j =>
      nuOf σ q j + σ * Real.log (∑ i,
        Real.exp ((Φ i j - (stabStep σ Φ p q s).u i) / σ)) := by
  funext j
  have hrepr : (stabStep σ Φ p q s).v j =
      nuOf σ q j + colShift Φ (stabStep σ Φ p q s).u j +
        σ * Real.log (∑ i, Real.exp ((Φ i j -
          (stabStep σ Φ p q s).u i -
          colShift Φ (stabStep σ Φ p q s).u j) / σ)) := rfl
  rw [hrepr, add_assoc,
    shifted_logsum σ hσ (fun i => Φ i j - (stabStep σ Φ p q s).u i)
      (colShift Φ (stabStep σ Φ p q s).u j)]

/-- The cell-6 and cell-7 iterate sequences carry identical potentials:
the same `v` at every iteration count, the same `u` from the first
iteration on. -/
lemma stab_log_uv {n m : ℕ} [NeZero n] [NeZero m] (σ : ℝ) (hσ : σ ≠ 0)
    (Φ : Fin n → Fin m → ℝ) (p : Fin n → ℝ) (q : Fin m → ℝ) (tol : ℝ) :
    ∀ k : ℕ, (stabIter σ Φ p q tol k).v = (logIter σ Φ p q tol k).v ∧
      (1 ≤ k →
        (stabIter σ Φ p q tol k).u = (logIter σ Φ p q tol k).u) := by
  intro k
  induction k with
  | zero => exact ⟨rfl, by omega⟩
  | succ k ih =>
    have hs : stabIter σ Φ p q tol (k + 1) =
        stabStep σ Φ p q (stabIter σ Φ p q tol k) :=
      Function.iterate_succ_apply' _ _ _
    have hl : logIter σ Φ p q tol (k + 1) =
        logStep σ Φ p q (logIter σ Φ p q tol k) :=
      Function.iterate_succ_apply' _ _ _
    have hu : (stabIter σ Φ p q tol (k + 1)).u =
        (logIter σ Φ p q tol (k + 1)).u := by
      rw [hs, hl, stabStep_u_eq σ hσ, ih.1]
      rfl
    have hv : (stabIter σ Φ p q tol (k + 1)).v =
        (logIter σ Φ p q tol (k + 1)).v := by
      rw [hs, stabStep_v_eq σ hσ, ← hs]
      have hlogv : (logIter σ Φ p q tol (k + 1)).v = fun j =>
          nuOf σ q j + σ * Real.log (∑ i,
            Real.exp ((Φ i j - (logIter σ Φ p q tol (k + 1)).u i) /
              σ)) := by
        rw [hl]; rfl
      rw [hlogv, hu]
    exact ⟨hv, fun _ => hu⟩

end IPFP

namespace IPFP

/-- The cell-5 and cell-6 iterate sequences are the same dual state in
two coordinate systems: `B = exp(-v/σ)` at every iteration count and
`A = exp(-u/σ)` from the first iteration on. -/
lemma lin_log_AB {n m : ℕ} [NeZero n] [NeZero m] (σ : ℝ) (hσ : σ ≠ 0)
    (Φ : Fin n → Fin m → ℝ) (p : Fin n → ℝ) (q : Fin m → ℝ) (tol : ℝ)
    (hp : ∀ i, 0 < p i) (hq : ∀ j, 0 < q j) :
    ∀ k : ℕ,
      ((linIter p q (kernel σ Φ) tol k).B = fun j =>
        Real.exp (-(logIter σ Φ p q tol k).v j / σ)) ∧
      (1 ≤ k → (linIter p q (kernel σ Φ) tol k).A = fun i =>
        Real.exp (-(logIter σ Φ p q tol k).u i / σ)) := by
  intro k
  induction k with
  | zero =>
    refine ⟨?_, by omega⟩
    funext j
    show (1 : ℝ) = Real.exp (-(0 : ℝ) / σ)
    rw [neg_zero, zero_div, Real.exp_zero]
  | succ k ih =>
    have hlin : linIter p q (kernel σ Φ) tol (k + 1) =
        linStep p q (kernel σ Φ) (linIter p q (kernel σ Φ) tol k) :=
      Function.iterate_succ_apply' _ _ _
    have hlog : logIter σ Φ p q tol (k + 1) =
        logStep σ Φ p q (logIter σ Φ p q tol k) :=
      Function.iterate_succ_apply' _ _ _
    have hKB : ∀ i,
        ∑ j, kernel σ Φ i j * (linIter p q (kernel σ Φ) tol k).B j =
        ∑ j, Real.exp ((Φ i j - (logIter σ Φ p q tol k).v j) / σ) := by
      intro i
      rw [ih.1]
      exact Finset.sum_congr rfl (fun j _ => kernel_mul_exp σ Φ _ i j)
    have hS : ∀ i,
        0 < ∑ j, Real.exp ((Φ i j - (logIter σ Φ p q tol k).v j) / σ) :=
      fun i => sum_exp_pos _
    have hA : (linIter p q (kernel σ Φ) tol (k + 1)).A = fun i =>
        Real.exp (-(logIter σ Φ p q tol (k + 1)).u i / σ) := by
      funext i
      have hAi : (linIter p q (kernel σ Φ) tol (k + 1)).A i =
          p i / ∑ j,
            kernel σ Φ i j * (linIter p q (kernel σ Φ) tol k).B j := by
        rw [hlin]; rfl
      have hui : (logIter σ Φ p q tol (k + 1)).u i =
          muOf σ p i + σ * Real.log (∑ j,
            Real.exp ((Φ i j - (logIter σ Φ p q tol k).v j) / σ)) := by
        rw [hlog]; rfl
      rw [hAi, hKB i, hui,
        show muOf σ p i = -σ * Real.log (p i) from rfl,
        exp_neg_dual σ hσ (p i) _ (hp i) (hS i)]
    have hKA : ∀ j,
        ∑ i, (linIter p q (kernel σ Φ) tol (k + 1)).A i *
          kernel σ Φ i j =
        ∑ i, Real.exp ((Φ i j -
          (logIter σ Φ p q tol (k + 1)).u i) / σ) := by
      intro j
      simp only [hA]
      refine Finset.sum_congr rfl (fun i _ => ?_)
      rw [mul_comm, kernel_mul_exp σ Φ _ i j]
    have hKAlogpos : ∀ j, 0 < ∑ i, Real.exp ((Φ i j -
        (logIter σ Φ p q tol (k + 1)).u i) / σ) :=
      fun j => sum_exp_pos _
    have hB : (linIter p q (kernel σ Φ) tol (k + 1)).B = fun j =>
        Real.exp (-(logIter σ Φ p q tol (k + 1)).v j / σ) := by
      funext j
      have hBj : (linIter p q (kernel σ Φ) tol (k + 1)).B j =
          q j / ∑ i, (linIter p q (kernel σ Φ) tol (k + 1)).A i *
            kernel σ Φ i j := by
        rw [hlin]; rfl
      have hvj : (logIter σ Φ p q tol (k + 1)).v j =
          nuOf σ q j + σ * Real.log (∑ i, Real.exp ((Φ i j -
            (logIter σ Φ p q tol (k + 1)).u i) / σ)) := by
        rw [hlog]; rfl
      rw [hBj, hKA j, hvj,
        show nuOf σ q j = -σ * Real.log (q j) from rfl,
        exp_neg_dual σ hσ (q j) _ (hq j) (hKAlogpos j)]
    exact ⟨hB, fun _ => hA⟩

/-- C5: the three embedded iterations are the same iteration: for every
`σ > 0` and positive marginals, after any number `k ≥ 1` of loop-body
executions the cell-6 and cell-7 states carry identical `u` and `v`,
the cell-5 and cell-6 convergence errors coincide, and all three
implied couplings are equal — so whenever the runs converge they
converge to the same `π`. -/
theorem three_iterations_equivalent {n m : ℕ} [NeZero n] [NeZero m]
    (σ : ℝ) (Φ : Fin n → Fin m → ℝ) (p : Fin n → ℝ) (q : Fin m → ℝ)
    (tol : ℝ) (hσ : 0 < σ) (hp : ∀ i, 0 < p i) (hq : ∀ j, 0 < q j) :
    ∀ k : ℕ, 1 ≤ k →
      ((stabIter σ Φ p q tol k).u = (logIter σ Φ p q tol k).u ∧
       (stabIter σ Φ p q tol k).v = (logIter σ Φ p q tol k).v) ∧
      ((linIter p q (kernel σ Φ) tol k).error =
        (logIter σ Φ p q tol k).error) ∧
      (linPi (kernel σ Φ) (linIter p q (kernel σ Φ) tol k) =
        logPi σ Φ (logIter σ Φ p q tol k).u
          (logIter σ Φ p q tol k).v) ∧
      (logPi σ Φ (stabIter σ Φ p q tol k).u
          (stabIter σ Φ p q tol k).v =
        logPi σ Φ (logIter σ Φ p q tol k).u
          (logIter σ Φ p q tol k).v) := by
  intro k hk
  obtain ⟨k, rfl⟩ : ∃ k', k = k' + 1 := ⟨k - 1, by omega⟩
  have hσ' := ne_of_gt hσ
  have huv := stab_log_uv σ hσ' Φ p q tol (k + 1)
  have hAB := lin_log_AB σ hσ' Φ p q tol hp hq (k + 1)
  have hABk := lin_log_AB σ hσ' Φ p q tol hp hq k
  have hlin : linIter p q (kernel σ Φ) tol (k + 1) =
      linStep p q (kernel σ Φ) (linIter p q (kernel σ Φ) tol k) :=
    Function.iterate_succ_apply' _ _ _
  have hlog : logIter σ Φ p q tol (k + 1) =
      logStep σ Φ p q (logIter σ Φ p q tol k) :=
    Function.iterate_succ_apply' _ _ _
  have hKA : ∀ j,
      ∑ i, (linIter p q (kernel σ Φ) tol (k + 1)).A i *
        kernel σ Φ i j =
      ∑ i, Real.exp ((Φ i j -
        (logIter σ Φ p q tol (k + 1)).u i) / σ) := by
    intro j
    simp only [hAB.2 (by omega : 1 ≤ k + 1)]
    refine Finset.sum_congr rfl (fun i _ => ?_)
    rw [mul_comm, kernel_mul_exp σ Φ _ i j]
  refine ⟨⟨huv.2 (by omega), huv.1⟩, ?_, ?_, ?_⟩
  · have herr_lin : (linIter p q (kernel σ Φ) tol (k + 1)).error =
        vmax (fun j => |(∑ i,
          (linIter p q (kernel σ Φ) tol (k + 1)).A i *
            kernel σ Φ i j) *
          ((linIter p q (kernel σ Φ) tol k).B j / q j) - 1|) := by
      rw [hlin]; rfl
    have herr_log : (logIter σ Φ p q tol (k + 1)).error =
        vmax (fun j => |(∑ i, Real.exp ((Φ i j -
          (logIter σ Φ p q tol (k + 1)).u i) / σ)) *
          Real.exp (-(logIter σ Φ p q tol k).v j / σ) / q j - 1|) := by
      rw [hlog]; rfl
    rw [herr_lin, herr_log]
    congr 1
    funext j
    rw [hKA j, congrFun hABk.1 j, mul_div_assoc]
  · funext i j
    show kernel σ Φ i j * (linIter p q (kernel σ Φ) tol (k + 1)).A i *
        (linIter p q (kernel σ Φ) tol (k + 1)).B j =
      logPi σ Φ (logIter σ Φ p q tol (k + 1)).u
        (logIter σ Φ p q tol (k + 1)).v i j
    simp only [hAB.1, hAB.2 (by omega : 1 ≤ k + 1), logPi]
    calc kernel σ Φ i j *
        Real.exp (-(logIter σ Φ p q tol (k + 1)).u i / σ) *
        Real.exp (-(logIter σ Φ p q tol (k + 1)).v j / σ)
        = Real.exp ((Φ i j - (logIter σ Φ p q tol (k + 1)).u i) / σ) *
          Real.exp (-(logIter σ Φ p q tol (k + 1)).v j / σ) := by
          rw [kernel_mul_exp]
      _ = Real.exp ((Φ i j - (logIter σ Φ p q tol (k + 1)).u i -
          (logIter σ Φ p q tol (k + 1)).v j) / σ) := by
          rw [← Real.exp_add]
          congr 1
          ring
  · rw [huv.1, huv.2 (by omega : 1 ≤ k + 1)]

/-- Witness for `three_iterations_equivalent`: the coupling equality of
the cell-5 and cell-6 engines after one iteration of a concrete
instance. -/
theorem three_iterations_equivalent_witness :
    linPi (kernel 1 (fun _ _ => (0 : ℝ)))
      (linIter ![1] ![1] (kernel 1 (fun _ _ => (0 : ℝ))) 0 1) =
    logPi 1 (fun _ _ => (0 : ℝ))
      (logIter 1 (fun _ _ => (0 : ℝ)) ![1] ![1] 0 1).u
      (logIter 1 (fun _ _ => (0 : ℝ)) ![1] ![1] 0 1).v :=
  (three_iterations_equivalent 1 (fun _ _ => (0 : ℝ)) ![1] ![1] 0
    (by norm_num) (fun i => by fin_cases i; norm_num)
    (fun j => by fin_cases j; norm_num) 1 (le_refl 1)).2.2.1

end IPFP
